import Mathlib

/-!
Verification development for the QWeb `CompilationContext`
(`src/qweb/compilation_context.ts`).

The TypeScript class is stateful JavaScript: contexts are plain objects,
`subContext` derives a child with `Object.create(this)` (prototypal
delegation) and sets exactly one own property, the instruction array
`code` is shared by reference along a derivation chain, and the id
allocator is a static (process-wide) counter `CompilationContext.nextID`.

We embed this with an explicit heap: a context object is a prototype
link plus an own-property map from field names to JS values; reading a
field walks the prototype chain; assignment always writes an own
property (all fields are plain data properties).  The `code` array is
stored by value in the own map of the object that owns it; `push` and
`unshift` are modelled by locating the owning object along the chain
and updating its value there, which coincides with JS reference
semantics because this API never aliases one array from two objects.
The static counter lives directly on the heap.  Numbers are `Int`
(every number the class manipulates is an integer), and JS truthiness
is modelled explicitly (`0`, `""`, `null`, `undefined` are falsy).
-/

namespace Owl

/-- A variable entry of the `variables` mapping.
Modelled from the spec: the type `QWebVar` comes from
`expression_parser.ts`, which is not part of the sources under study;
the spec describes it as "either a literal replacement string or a
reference to another variable name, forming a possibly multi-hop
indirection chain resolved by repeated lookup". -/
abbrev QWebVar := String

/-- The JavaScript values stored in the fields of a `CompilationContext`. -/
inductive JSVal where
  | num (n : Int)
  | str (s : String)
  | bool (b : Bool)
  | null
  | undefined
  | strList (l : List String)
  | varMap (m : List (String × QWebVar))
  | boolList (l : List Bool)
  | ctxRef (o : Nat)
  deriving DecidableEq, Repr

/-- JS truthiness of the values above (`0`, `""`, `false`, `null`,
`undefined` are falsy; arrays and objects are truthy). -/
def truthy : JSVal → Bool
  | .num n => n != 0
  | .str s => s != ""
  | .bool b => b
  | .null => false
  | .undefined => false
  | .strList _ => true
  | .varMap _ => true
  | .boolList _ => true
  | .ctxRef _ => true

/-- Numeric coercion used where the source does arithmetic on a field
that is always a number (`indentLevel`, `loopNumber`). -/
def asNum : JSVal → Int
  | .num n => n
  | _ => 0

/-- The instance fields of `CompilationContext`. -/
inductive Field where
  | code | variables | escaping | parentNode | parentTextNode | rootNode
  | indentLevel | rootContext | shouldDefineParent | shouldDefineScope
  | shouldDefineQWeb | shouldDefineUtils | shouldDefineRefs
  | shouldDefineResult | loopNumber | inPreTag | templateName
  | allowMultipleRoots | hasParentWidget | hasKey0 | keyStack | subScopeID
  deriving DecidableEq, Repr

/-- A context object: a prototype link (`Object.create`) and the own
properties.  Objects made by `new CompilationContext` own every field;
objects made by `subContext` own exactly the overridden field. -/
structure CtxObj where
  proto : Option Nat
  own : List (Field × JSVal)
  deriving DecidableEq, Repr

/-- The mutable state of a compilation process: the static counter
`CompilationContext.nextID` and the allocated context objects
(a context reference is an index into `objs`). -/
structure Heap where
  nextID : Int
  objs : List CtxObj
  deriving DecidableEq, Repr

/-- The heap at process start: `nextID` is initialised to `1`. -/
def emptyHeap : Heap := ⟨1, []⟩

/-- Own-property lookup on one object. -/
def getOwn (obj : CtxObj) (f : Field) : Option JSVal :=
  (obj.own.find? (fun p => decide (p.1 = f))).map Prod.snd

/-- Update (or insert) one key of an own-property map. -/
def setAssoc : List (Field × JSVal) → Field → JSVal → List (Field × JSVal)
  | [], f, v => [(f, v)]
  | (g, w) :: rest, f, v =>
      if g = f then (f, v) :: rest else (g, w) :: setAssoc rest f v

/-- JS property assignment `obj[f] = v`: all fields are plain data
properties, so assignment always creates or updates an own property on
the assigned object itself. -/
def setOwn (h : Heap) (oid : Nat) (f : Field) (v : JSVal) : Heap :=
  match h.objs[oid]? with
  | some obj => { h with objs := h.objs.set oid { obj with own := setAssoc obj.own f v } }
  | none => h

/-- Walk the prototype chain looking for the first object that owns
field `f`; returns that object and the stored value.  The fuel only
serves totality: prototype links of API-created objects always point
to previously allocated (smaller-index) objects, so fuel `oid + 1`
always suffices (see `WFHeap`). -/
def ownAux (h : Heap) : Nat → Nat → Field → Option (Nat × JSVal)
  | 0, _, _ => none
  | fuel + 1, oid, f =>
    match h.objs[oid]? with
    | none => none
    | some obj =>
      match getOwn obj f with
      | some v => some (oid, v)
      | none =>
        match obj.proto with
        | some p => ownAux h fuel p f
        | none => none

/-- First owner of field `f` along the prototype chain of `oid`. -/
def findOwner (h : Heap) (oid : Nat) (f : Field) : Option (Nat × JSVal) :=
  ownAux h (oid + 1) oid f

/-- JS property read `obj.f`: own properties first, then the prototype
chain; `undefined` when the field is found nowhere. -/
def readField (h : Heap) (oid : Nat) (f : Field) : JSVal :=
  ((findOwner h oid f).map Prod.snd).getD .undefined

/-- `protoLT po i`: when a prototype link is present it points below `i`. -/
def protoLT : Option Nat → Nat → Bool
  | some p, i => decide (p < i)
  | none, _ => true

/-- Heap well-formedness: every prototype link points to an earlier
allocation.  `Object.create(this)` can only link to an object that
already exists, so every heap reachable through the API satisfies this. -/
def heapWF (h : Heap) : Bool :=
  (List.range h.objs.length).all fun i =>
    (h.objs[i]?).all fun obj => protoLT obj.proto i

/-- The object `this.rootContext` points to.  For every API-created
context this field holds a context reference; the default covers only
heaps corrupted from outside the class. -/
def rootOf (h : Heap) (oid : Nat) : Nat :=
  match readField h oid .rootContext with
  | .ctxRef r => r
  | _ => oid

/-- `new Array(n + 2).join("    ")`: `n + 1` copies of the four-space
indent unit (and none when the level is negative, which the API never
produces). -/
def indentPrefix (n : Int) : String :=
  String.join (List.replicate (n + 1).toNat "    ")

/-- `addLine(line)`: prefixes the line with whitespace proportional to
`this.indentLevel`, pushes it onto the (chain-shared) `code` array and
returns the index of the appended line.  The push mutates the array
where it is owned. -/
def addLine (h : Heap) (oid : Nat) (line : String) : Heap × Nat :=
  let pfx := indentPrefix (asNum (readField h oid .indentLevel))
  match findOwner h oid .code with
  | some (o, .strList cs) =>
      (setOwn h o .code (.strList (cs ++ [pfx ++ line])), cs.length)
  | _ => (h, 0)

/-- `array.unshift(line)` on `this.code`, used by `generateCode`. -/
def unshiftLine (h : Heap) (oid : Nat) (line : String) : Heap :=
  match findOwner h oid .code with
  | some (o, .strList cs) => setOwn h o .code (.strList (line :: cs))
  | _ => h

/-- `name || "noname"` (an empty string is falsy in JS). -/
def jsOrNoname : Option String → String
  | some s => if s = "" then "noname" else s
  | none => s!"noname"

/-- The own-property map produced by the class field initialisers and
the constructor body (`rootContext = this`, `templateName = name ||
"noname"`); a `new`-constructed context owns every field. -/
def defaultOwn (oid : Nat) (name : Option String) : List (Field × JSVal) :=
  [(.code, .strList []), (.variables, .varMap []), (.escaping, .bool false),
   (.parentNode, .null), (.parentTextNode, .null), (.rootNode, .null),
   (.indentLevel, .num 0), (.rootContext, .ctxRef oid),
   (.shouldDefineParent, .bool false), (.shouldDefineScope, .bool false),
   (.shouldDefineQWeb, .bool false), (.shouldDefineUtils, .bool false),
   (.shouldDefineRefs, .bool false), (.shouldDefineResult, .bool true),
   (.loopNumber, .num 0), (.inPreTag, .bool false),
   (.templateName, .str (jsOrNoname name)),
   (.allowMultipleRoots, .bool false), (.hasParentWidget, .bool false),
   (.hasKey0, .bool false), (.keyStack, .boolList []), (.subScopeID, .null)]

/-- `new CompilationContext(name?)`: allocates a fresh object owning
every field, then runs the constructor's `addLine("let h = this.h;")`. -/
def newCtx (h : Heap) (name : Option String) : Heap × Nat :=
  let oid := h.objs.length
  let h1 : Heap := { h with objs := h.objs ++ [⟨none, defaultOwn oid name⟩] }
  ((addLine h1 oid "let h = this.h;").1, oid)

/-- `generateID()`: returns `CompilationContext.nextID++` — the static,
process-wide counter; the receiving instance plays no role. -/
def generateID (h : Heap) : Int × Heap :=
  (h.nextID, { h with nextID := h.nextID + 1 })

/-- `subContext(key, value)`: `Object.create(this)` followed by
`newContext[key] = value`; the derived object owns exactly the one
overridden field and delegates everything else to its prototype. -/
def subContext (h : Heap) (oid : Nat) (k : Field) (v : JSVal) : Heap × Nat :=
  ({ h with objs := h.objs ++ [⟨some oid, [(k, v)]⟩] }, h.objs.length)

/-- `withParent(node)`: throws the structural-violation error when
called on the root context of a chain that disallows multiple roots
and already has a truthy `parentNode` or `parentTextNode`; otherwise
records the first truthy `rootNode` on the root, emits the
result-assignment line when there is no current parent and the root
wants a result variable, and returns `subContext("parentNode", node)`.
The error is raised before any mutation, so the failure state carries
no heap change. -/
def withParent (h : Heap) (oid : Nat) (node : Int) :
    Except String (Heap × Nat) :=
  if ¬ truthy (readField h oid .allowMultipleRoots)
      ∧ readField h oid .rootContext = .ctxRef oid
      ∧ (truthy (readField h oid .parentNode)
         ∨ truthy (readField h oid .parentTextNode)) then
    .error "A template should not have more than one root node"
  else
    let r := rootOf h oid
    let h1 := if truthy (readField h r .rootNode) then h
              else setOwn h r .rootNode (.num node)
    let h2 :=
      if ¬ truthy (readField h1 oid .parentNode)
          ∧ truthy (readField h1 (rootOf h1 oid) .shouldDefineResult) then
        (addLine h1 oid ("result = vn" ++ toString node ++ ";")).1
      else h1
    .ok (subContext h2 oid .parentNode (.num node))

/-- `indent()`: `this.rootContext.indentLevel++`. -/
def indentCtx (h : Heap) (oid : Nat) : Heap :=
  let r := rootOf h oid
  setOwn h r .indentLevel (.num (asNum (readField h r .indentLevel) + 1))

/-- `dedent()`: `this.rootContext.indentLevel--`. -/
def dedentCtx (h : Heap) (oid : Nat) : Heap :=
  let r := rootOf h oid
  setOwn h r .indentLevel (.num (asNum (readField h r .indentLevel) - 1))

/-- `addIf(condition)`. -/
def addIf (h : Heap) (oid : Nat) (cond : String) : Heap :=
  indentCtx (addLine h oid ("if (" ++ cond ++ ") \x7b")).1 oid

/-- `addElse()`. -/
def addElse (h : Heap) (oid : Nat) : Heap :=
  indentCtx (addLine (dedentCtx h oid) oid "\x7d else \x7b").1 oid

/-- `closeIf()`. -/
def closeIf (h : Heap) (oid : Nat) : Heap :=
  (addLine (dedentCtx h oid) oid "\x7d").1

/-- The composite template-string key built by `generateTemplateKey`
when inside a loop (or with an explicit level-0 key): starting from
`` `prefix__id__ `` it appends one `$\x7bkey<i>\x7d__` fragment for
every loop level `i` from `start` (0 when `hasKey0` is truthy, else 1)
up to `loopNumber` inclusive — the source's
`for (let i = start; i < this.loopNumber + 1; i++)`. -/
def templateKeyExpr (pfx : String) (id : Int) (hk0 : Bool) (L : Int) :
    String :=
  "`" ++ pfx ++ "__" ++ toString id ++ "__" ++
    String.join ((List.range (L + 1 - (if hk0 then 0 else 1)).toNat).map
      (fun j => "$\x7bkey" ++
        toString ((if hk0 then (0 : Int) else 1) + (j : Int)) ++ "\x7d__"))

/-- `generateTemplateKey(prefix)`: a fresh id; outside any loop and
without a level-0 key the result is the quoted literal
`'prefix__id__'` and nothing is emitted; otherwise the composite key
`templateKeyExpr` is bound by one emitted line `let k<id> = ...;` and
the binding's name is returned. -/
def generateTemplateKey (h : Heap) (oid : Nat) (pfx : String) :
    String × Heap :=
  let (id, h1) := generateID h
  if readField h1 oid .loopNumber = .num 0
      ∧ ¬ truthy (readField h1 oid .hasKey0) then
    ("'" ++ pfx ++ "__" ++ toString id ++ "__'", h1)
  else
    let key := templateKeyExpr pfx id (truthy (readField h1 oid .hasKey0))
      (asNum (readField h1 oid .loopNumber))
    (("k" ++ toString id),
      (addLine h1 oid ("let k" ++ toString id ++ " = " ++ key ++ "`;")).1)

/-- One conditional prologue insertion of `generateCode`:
`if (this.<flag>) { this.code.unshift(line); }`. -/
def pushFlagLine (h : Heap) (oid : Nat) (flag : Field) (l : String) : Heap :=
  if truthy (readField h oid flag) then unshiftLine h oid l else h

/-- `generateCode()`: conditionally `unshift`s the prologue
declarations, testing the six should-define flags in the fixed source
order (result, scope, refs, parent, QWeb, utils), then returns
`this.code`.  The parent step's nested conditional — choosing the
`extra.parent` line when `this.hasParentWidget` — is expressed by
selecting the line before the (side-effect free) unshift. -/
def generateCode (h : Heap) (oid : Nat) : List String × Heap :=
  let h1 := pushFlagLine h oid .shouldDefineResult "    let result;"
  let h2 := pushFlagLine h1 oid .shouldDefineScope
    "    let scope = Object.create(context);"
  let h3 := pushFlagLine h2 oid .shouldDefineRefs
    "    context.__owl__.refs = context.__owl__.refs || \x7b\x7d;"
  let h4 := pushFlagLine h3 oid .shouldDefineParent
    (if truthy (readField h3 oid .hasParentWidget) then
      "    let parent = extra.parent;"
    else "    let parent = context;")
  let h5 := pushFlagLine h4 oid .shouldDefineQWeb
    "    let QWeb = this.constructor;"
  let h6 := pushFlagLine h5 oid .shouldDefineUtils
    "    let utils = this.constructor.utils;"
  (match readField h6 oid .code with
   | .strList cs => cs
   | _ => [], h6)

/-- JS string coercion for the values interpolated into emitted code
(only numbers are reachable through this API). -/
def jsToString : JSVal → String
  | .num n => toString n
  | .str s => s
  | .bool b => toString b
  | .null => s!"null"
  | .undefined => s!"undefined"
  | _ => ""

/-- The scope reference name `formatExpression` passes to the
expression parser: `subScope_<id>` when `this.subScopeID` is truthy,
else `scope`. -/
def scopeNameOf (h : Heap) (oid : Nat) : String :=
  let sid := readField h oid .subScopeID
  if truthy sid then "subScope_" ++ jsToString sid else s!"scope"

/-- The `this.variables` mapping as seen by the expression parser. -/
def varsOf (h : Heap) (oid : Nat) : List (String × QWebVar) :=
  match readField h oid .variables with
  | .varMap m => m
  | _ => []

/-- `formatExpression(expr)`: marks the root as needing a scope
variable and delegates to the external `compileExpr` (the expression
parser is outside the sources under study, so it is a parameter: a
pure function of the expression, the variable mapping and the scope
reference name, per its contract in the spec). -/
def formatExpression (cexpr : String → List (String × QWebVar) → String → String)
    (h : Heap) (oid : Nat) (e : String) : String × Heap :=
  let h1 := setOwn h (rootOf h oid) .shouldDefineScope (.bool true)
  (cexpr e (varsOf h1 oid) (scopeNameOf h1 oid), h1)

/-- `startProtectScope()`. -/
def startProtectScope (h : Heap) (oid : Nat) : Int × Heap :=
  let (id, h1) := generateID h
  let h2 := setOwn h1 (rootOf h1 oid) .shouldDefineScope (.bool true)
  let h3 := (addLine h2 oid ("let _origScope" ++ toString id ++ " = scope;")).1
  (id, (addLine h3 oid "scope = Object.assign(Object.create(context), scope);").1)

/-- `stopProtectScope(protectID)`. -/
def stopProtectScope (h : Heap) (oid : Nat) (pid : Int) : Heap :=
  (addLine h oid ("scope = _origScope" ++ toString pid ++ ";")).1

/-- `startBlockScope()`. -/
def startBlockScope (h : Heap) (oid : Nat) : Heap × Nat :=
  let h1 := setOwn h (rootOf h oid) .shouldDefineScope (.bool true)
  let (scopeID, h2) := generateID h1
  let (h3, ctx) := subContext h2 oid .subScopeID (.num scopeID)
  ((addLine h3 ctx ("const subScope_" ++ toString scopeID ++
      " = Object.assign(Object.create(context), scope);")).1, ctx)

/-! ### Interpolation: the regex `INTERP_REGEXP` and `interpolate` -/

/-- The character `{`. -/
def lbrace : Char := Char.ofNat 123

/-- The character `}`. -/
def rbrace : Char := Char.ofNat 125

/-- The newline character, which `.` in a JS regex does not match. -/
def nlChar : Char := Char.ofNat 10

/-- A segment of the scan of a string by the global regex
`INTERP_REGEXP = /\x7b\x7b.*?\x7d\x7d/g` (braces escaped here): either
one literal character not part of any match, or one match with the
given content between the brace pairs. -/
inductive Seg where
  | lit (c : Char)
  | marker (content : List Char)
  deriving DecidableEq, Repr

/-- Whether a segment is a literal character. -/
def Seg.isLit : Seg → Bool
  | .lit _ => true
  | .marker _ => false

/-- The non-greedy `.*?\x7d\x7d` after an opening brace pair: scan to
the EARLIEST closing brace pair, failing on a newline (`.` matches no
line break) or at end of input; returns the content and the rest after
the closing pair. -/
def findClose : List Char → Option (List Char × List Char)
  | [] => none
  | c :: cs =>
    if c = rbrace ∧ cs.head? = some rbrace then some ([], cs.tail)
    else if c = nlChar then none
    else (findClose cs).map (fun p => (c :: p.1, p.2))

/-- A regex match attempt at the current position: an opening brace
pair followed by the non-greedy closed content. -/
def markerSplit : List Char → Option (List Char × List Char)
  | c1 :: c2 :: rest =>
    if c1 = lbrace ∧ c2 = lbrace then findClose rest else none
  | _ => none

/-- One global-regex scan step (with fuel for totality; the fuel
`l.length` used by `scanSegs` always suffices because a match consumes
at least four characters): try a match at the current position, else
emit one literal character and retry at the next position — exactly
how a global JS regex advances. -/
def scanAux : Nat → List Char → List Seg
  | 0, _ => []
  | _, [] => []
  | fuel + 1, c :: cs =>
    match markerSplit (c :: cs) with
    | some (content, rest) => .marker content :: scanAux fuel rest
    | none => .lit c :: scanAux fuel cs

/-- The decomposition of a string into regex matches and untouched
literal characters, in order. -/
def scanSegs (l : List Char) : List Seg := scanAux l.length l

/-- The characters a segment stands for in the original string. -/
def segChars : Seg → List Char
  | .lit c => [c]
  | .marker t => lbrace :: lbrace :: t ++ rbrace :: rbrace :: []

/-- Reassembling a segment list into the string it was scanned from. -/
def reassembleSegs (l : List Seg) : List Char := (l.map segChars).flatten

/-- `s.match(INTERP_REGEXP)`: the full texts of all matches, in order
(`[]` stands for JS `null`). -/
def interpMatches (s : String) : List (List Char) :=
  (scanSegs s.data).filterMap fun sg =>
    match sg with
    | .marker t => some (lbrace :: lbrace :: t ++ rbrace :: rbrace :: [])
    | .lit _ => none

/-- `s.slice(2, -2)`: the string without its first two and last two
characters. -/
def slice2m2 (s : String) : String :=
  String.mk (s.data.drop 2).dropLast.dropLast

/-- The replacement pass of `interpolate`: literal characters are kept,
each match `m` is replaced by `"$\x7b" + formatExpression(m.slice(2,-2))
+ "\x7d"`, threading the heap through the `formatExpression` calls in
left-to-right order exactly as `String.replace` invokes its callback. -/
def renderThread (cexpr : String → List (String × QWebVar) → String → String) :
    Heap → Nat → List Seg → List Char × Heap
  | h, _, [] => ([], h)
  | h, oid, .lit c :: rest =>
    let p := renderThread cexpr h oid rest
    (c :: p.1, p.2)
  | h, oid, .marker t :: rest =>
    let q := formatExpression cexpr h oid (String.mk t)
    let p := renderThread cexpr q.2 oid rest
    ('$' :: lbrace :: q.1.data ++ rbrace :: p.1, p.2)

/-- `interpolate(s)`: when the first match spans the whole string, the
formatted inner expression in parentheses; otherwise the string with
every match replaced, wrapped in backticks (a template string). -/
def interpolate
    (cexpr : String → List (String × QWebVar) → String → String)
    (h : Heap) (oid : Nat) (s : String) : String × Heap :=
  match (interpMatches s).head? with
  | some m =>
    if m.length = s.data.length then
      let p := formatExpression cexpr h oid (slice2m2 s)
      ("(" ++ p.1 ++ ")", p.2)
    else
      let p := renderThread cexpr h oid (scanSegs s.data)
      ("`" ++ String.mk p.1 ++ "`", p.2)
  | none =>
    let p := renderThread cexpr h oid (scanSegs s.data)
    ("`" ++ String.mk p.1 ++ "`", p.2)

/-! ### `getValue` and the variable mapping -/

/-- Lookup in the `variables` mapping (`val in this.variables` plus
`this.variables[val]`). -/
def qlookup (vars : List (String × QWebVar)) (k : String) :
    Option QWebVar :=
  (vars.find? (fun p => p.1 == k)).map Prod.snd

/-- `getValue`, totalised with fuel: follow the indirection chain while
the current value is a key of the mapping.  The source recurses
unboundedly; under the documented acyclicity assumption a chain can
visit each key at most once, so fuel `vars.length + 1` reproduces it
exactly (proved below). -/
def getValueFuel (vars : List (String × QWebVar)) :
    Nat → String → String
  | 0, v => v
  | n + 1, v =>
    match qlookup vars v with
    | some w => getValueFuel vars n w
    | none => v

/-- `getValue(val)`: resolve a name through the indirection chain of
the variable mapping until a non-key value is reached. -/
def getValue (vars : List (String × QWebVar)) (v : String) : String :=
  getValueFuel vars (vars.length + 1) v

/-- The key (or value) reached after exactly `n` successful lookups,
`none` when some lookup along the way fails. -/
def chainIter (vars : List (String × QWebVar)) :
    Nat → String → Option String
  | 0, a => some a
  | n + 1, a =>
    match qlookup vars a with
    | some b => chainIter vars n b
    | none => none

/-- Acyclicity of the indirection chains, as the spec words it: no
chain of references reaches itself. -/
def Acyclic (vars : List (String × QWebVar)) : Prop :=
  ∀ a n, chainIter vars (n + 1) a ≠ some a

/-! ### The public operations as a trace alphabet -/

/-- One call of the public `CompilationContext` API (plus `extSet`,
an external field assignment, since collaborating code freely mutates
context fields).  Used to quantify over arbitrary interleavings of
operations on arbitrary context instances. -/
inductive Op where
  | newCtx (name : Option String)
  | generateID (oid : Nat)
  | generateTemplateKey (oid : Nat) (pfx : String)
  | generateCode (oid : Nat)
  | withParent (oid : Nat) (node : Int)
  | subContext (oid : Nat) (k : Field) (v : JSVal)
  | indent (oid : Nat)
  | dedent (oid : Nat)
  | addLine (oid : Nat) (line : String)
  | addIf (oid : Nat) (cond : String)
  | addElse (oid : Nat)
  | closeIf (oid : Nat)
  | formatExpression (oid : Nat) (e : String)
  | interpolate (oid : Nat) (s : String)
  | startProtectScope (oid : Nat)
  | stopProtectScope (oid : Nat) (pid : Int)
  | startBlockScope (oid : Nat)
  | extSet (oid : Nat) (f : Field) (v : JSVal)

/-- The heap effect of one operation (`generateID`'s receiver is
irrelevant: the counter is static).  A `withParent` throw leaves the
heap as it was — the error is raised before any mutation. -/
def runOp (cexpr : String → List (String × QWebVar) → String → String)
    (h : Heap) : Op → Heap
  | .newCtx name => (newCtx h name).1
  | .generateID _ => (generateID h).2
  | .generateTemplateKey oid pfx => (generateTemplateKey h oid pfx).2
  | .generateCode oid => (generateCode h oid).2
  | .withParent oid node =>
    match withParent h oid node with
    | .ok p => p.1
    | .error _ => h
  | .subContext oid k v => (subContext h oid k v).1
  | .indent oid => indentCtx h oid
  | .dedent oid => dedentCtx h oid
  | .addLine oid l => (addLine h oid l).1
  | .addIf oid cond => addIf h oid cond
  | .addElse oid => addElse h oid
  | .closeIf oid => closeIf h oid
  | .formatExpression oid e => (formatExpression cexpr h oid e).2
  | .interpolate oid s => (interpolate cexpr h oid s).2
  | .startProtectScope oid => (startProtectScope h oid).2
  | .stopProtectScope oid pid => stopProtectScope h oid pid
  | .startBlockScope oid => (startBlockScope h oid).1
  | .extSet oid f v => setOwn h oid f v

/-- Running a sequence of operations. -/
def runOps (cexpr : String → List (String × QWebVar) → String → String)
    (h : Heap) : List Op → Heap
  | [] => h
  | op :: rest => runOps cexpr (runOp cexpr h op) rest

/-! ### Frame lemmas for the heap model -/

theorem setAssoc_find?_self (l : List (Field × JSVal)) (f : Field) (v : JSVal) :
    (setAssoc l f v).find? (fun p => decide (p.1 = f)) = some (f, v) := by
  induction l with
  | nil => simp [setAssoc]
  | cons hd tl ih =>
    obtain ⟨g, w⟩ := hd
    by_cases hg : g = f
    · subst hg; simp [setAssoc]
    · simpa [setAssoc, hg] using ih

theorem setAssoc_find?_ne (l : List (Field × JSVal)) {f f' : Field} (v : JSVal)
    (hne : f' ≠ f) :
    (setAssoc l f v).find? (fun p => decide (p.1 = f')) =
      l.find? (fun p => decide (p.1 = f')) := by
  induction l with
  | nil => simp [setAssoc, Ne.symm hne]
  | cons hd tl ih =>
    obtain ⟨g, w⟩ := hd
    by_cases hg : g = f
    · subst hg; simp [setAssoc, Ne.symm hne]
    · by_cases hg' : g = f'
      · subst hg'; simp [setAssoc, hg]
      · simpa [setAssoc, hg, hg'] using ih

theorem getOwn_setAssoc_self (obj : CtxObj) (f : Field) (v : JSVal) :
    getOwn { obj with own := setAssoc obj.own f v } f = some v := by
  simp [getOwn, setAssoc_find?_self]

theorem getOwn_setAssoc_ne (obj : CtxObj) {f f' : Field} (v : JSVal)
    (hne : f' ≠ f) :
    getOwn { obj with own := setAssoc obj.own f v } f' = getOwn obj f' := by
  simp [getOwn, setAssoc_find?_ne _ _ hne]

theorem nextID_setOwn (h : Heap) (o : Nat) (f : Field) (v : JSVal) :
    (setOwn h o f v).nextID = h.nextID := by
  unfold setOwn; cases h.objs[o]? <;> rfl

theorem length_setOwn (h : Heap) (o : Nat) (f : Field) (v : JSVal) :
    (setOwn h o f v).objs.length = h.objs.length := by
  unfold setOwn; cases h.objs[o]? <;> simp

theorem getElem?_setOwn_ne (h : Heap) {o j : Nat} (f : Field) (v : JSVal)
    (hne : j ≠ o) : (setOwn h o f v).objs[j]? = h.objs[j]? := by
  unfold setOwn
  cases h.objs[o]? <;> simp [List.getElem?_set_ne (Ne.symm hne)]

theorem getElem?_setOwn_self {h : Heap} {o : Nat} {obj : CtxObj}
    (f : Field) (v : JSVal) (hobj : h.objs[o]? = some obj) :
    (setOwn h o f v).objs[o]? =
      some { obj with own := setAssoc obj.own f v } := by
  have ho : o < h.objs.length := by
    by_contra hlt
    rw [List.getElem?_eq_none (Nat.le_of_not_lt hlt)] at hobj
    exact Option.noConfusion hobj
  unfold setOwn
  rw [hobj]
  simpa using List.getElem?_set_eq_of_lt _ ho

theorem setOwn_eq_of_none {h : Heap} {o : Nat} (f : Field) (v : JSVal)
    (hobj : h.objs[o]? = none) : setOwn h o f v = h := by
  unfold setOwn; rw [hobj]

theorem heapWF_lt {h : Heap} {i p : Nat} {obj : CtxObj}
    (hwf : heapWF h = true) (hobj : h.objs[i]? = some obj)
    (hp : obj.proto = some p) : p < i := by
  have hi : i < h.objs.length := by
    by_contra hlt
    rw [List.getElem?_eq_none (Nat.le_of_not_lt hlt)] at hobj
    exact Option.noConfusion hobj
  rw [heapWF, List.all_eq_true] at hwf
  have := hwf i (List.mem_range.2 hi)
  rw [hobj] at this
  simp only [Option.all_some, hp, protoLT] at this
  exact of_decide_eq_true this

/-- Reads of a field other than the assigned one are unaffected by
`setOwn`, on every object and at every fuel. -/
theorem ownAux_setOwn_ne (h : Heap) {o : Nat} {f f' : Field} (v : JSVal)
    (hne : f' ≠ f) :
    ∀ fuel oid, ownAux (setOwn h o f v) fuel oid f' = ownAux h fuel oid f' := by
  intro fuel
  induction fuel with
  | zero => intro oid; rfl
  | succ n ih =>
    intro oid
    by_cases hoid : oid = o
    · subst hoid
      cases hobj : h.objs[oid]? with
      | none => rw [setOwn_eq_of_none f v hobj]
      | some obj =>
        rw [ownAux, ownAux]
        simp only [hobj, getElem?_setOwn_self f v hobj,
          getOwn_setAssoc_ne obj v hne]
        cases hown : getOwn obj f' with
        | some w => simp only []
        | none =>
          simp only []
          cases hpr : obj.proto with
          | none => rfl
          | some p => exact ih p
    · rw [ownAux, ownAux, getElem?_setOwn_ne h f v hoid]
      cases hobj : h.objs[oid]? with
      | none => rfl
      | some obj =>
        simp only []
        cases hown : getOwn obj f' with
        | some w => simp only []
        | none =>
          simp only []
          cases hpr : obj.proto with
          | none => rfl
          | some p => exact ih p

/-- Whenever a read finds an owner, the owning object really stores
the returned value. -/
theorem ownAux_some_owner {h : Heap} {f : Field} :
    ∀ {fuel oid o : Nat} {w : JSVal}, ownAux h fuel oid f = some (o, w) →
      ∃ obj, h.objs[o]? = some obj ∧ getOwn obj f = some w := by
  intro fuel
  induction fuel with
  | zero => intro oid o w hh; exact absurd hh (by simp [ownAux])
  | succ n ih =>
    intro oid o w hh
    rw [ownAux] at hh
    cases hobj : h.objs[oid]? with
    | none => rw [hobj] at hh; simp at hh
    | some obj =>
      rw [hobj] at hh
      cases hown : getOwn obj f with
      | some u =>
        simp only [hown] at hh
        obtain ⟨rfl, rfl⟩ : oid = o ∧ u = w := by
          have := Option.some.inj hh
          exact ⟨congrArg Prod.fst this, congrArg Prod.snd this⟩
        exact ⟨obj, hobj, hown⟩
      | none =>
        simp only [hown] at hh
        cases hpr : obj.proto with
        | none => rw [hpr] at hh; simp at hh
        | some p => rw [hpr] at hh; exact ih hh

/-- Updating field `f` on the object that a read of `f` resolves to
changes exactly that read's result. -/
theorem ownAux_setOwn_owner {h : Heap} {f : Field} (v : JSVal) :
    ∀ {fuel oid o : Nat} {w : JSVal}, ownAux h fuel oid f = some (o, w) →
      ownAux (setOwn h o f v) fuel oid f = some (o, v) := by
  intro fuel
  induction fuel with
  | zero => intro oid o w hh; exact absurd hh (by simp [ownAux])
  | succ n ih =>
    intro oid o w hh
    rw [ownAux] at hh
    cases hobj : h.objs[oid]? with
    | none => rw [hobj] at hh; simp at hh
    | some obj =>
      rw [hobj] at hh
      cases hown : getOwn obj f with
      | some u =>
        simp only [hown] at hh
        obtain ⟨rfl, rfl⟩ : oid = o ∧ u = w := by
          have := Option.some.inj hh
          exact ⟨congrArg Prod.fst this, congrArg Prod.snd this⟩
        rw [ownAux]
        simp only [getElem?_setOwn_self f v hobj, getOwn_setAssoc_self]
      | none =>
        simp only [hown] at hh
        cases hpr : obj.proto with
        | none => rw [hpr] at hh; simp at hh
        | some p =>
          rw [hpr] at hh
          have hne : oid ≠ o := by
            intro hcon
            subst hcon
            obtain ⟨obj', hobj', hown'⟩ := ownAux_some_owner hh
            rw [hobj] at hobj'
            rw [Option.some.inj hobj'] at hown
            rw [hown] at hown'
            exact Option.noConfusion hown'
          rw [ownAux, getElem?_setOwn_ne h f v hne]
          simp only [hobj, hown, hpr]
          exact ih hh

/-- Reads only inspect objects at indices at or below the starting
object, provided prototype links always point downwards; so two heaps
that agree up to `oid` read identically from `oid`. -/
theorem ownAux_congr {h₁ h₂ : Heap} (hwf : heapWF h₁ = true) :
    ∀ {fuel oid : Nat}, (∀ j, j ≤ oid → h₁.objs[j]? = h₂.objs[j]?) →
      ∀ f, ownAux h₁ fuel oid f = ownAux h₂ fuel oid f := by
  intro fuel
  induction fuel with
  | zero => intro oid hag f; rfl
  | succ n ih =>
    intro oid hag f
    rw [ownAux, ownAux, ← hag oid (Nat.le_refl oid)]
    cases hobj : h₁.objs[oid]? with
    | none => rfl
    | some obj =>
      simp only []
      cases hown : getOwn obj f with
      | some w => simp only []
      | none =>
        simp only []
        cases hpr : obj.proto with
        | none => rfl
        | some p =>
          have hp : p < oid := heapWF_lt hwf hobj hpr
          exact ih (fun j hj => hag j (Nat.le_trans hj (Nat.le_of_lt hp))) f

theorem readField_setOwn_ne (h : Heap) (o oid : Nat) {f f' : Field}
    (v : JSVal) (hne : f' ≠ f) :
    readField (setOwn h o f v) oid f' = readField h oid f' := by
  rw [readField, readField, findOwner, findOwner, ownAux_setOwn_ne h v hne]

theorem findOwner_setOwn_owner {h : Heap} {oid o : Nat} {f : Field}
    {w : JSVal} (v : JSVal) (hfo : findOwner h oid f = some (o, w)) :
    findOwner (setOwn h o f v) oid f = some (o, v) :=
  ownAux_setOwn_owner v hfo

theorem readField_congr {h₁ h₂ : Heap} {oid : Nat}
    (hwf : heapWF h₁ = true)
    (hag : ∀ j, j ≤ oid → h₁.objs[j]? = h₂.objs[j]?) (f : Field) :
    readField h₁ oid f = readField h₂ oid f := by
  rw [readField, readField, findOwner, findOwner, ownAux_congr hwf hag]

/-- Allocating new objects does not change what existing contexts read. -/
theorem readField_append {h : Heap} {oid : Nat}
    (hwf : heapWF h = true) (hoid : oid < h.objs.length)
    (l : List CtxObj) (f : Field) :
    readField { h with objs := h.objs ++ l } oid f = readField h oid f := by
  refine (readField_congr hwf (fun j hj => ?_) f).symm
  exact (List.getElem?_append_left (Nat.lt_of_le_of_lt hj hoid)).symm

theorem heapWF_append {h : Heap} {x : CtxObj} (hwf : heapWF h = true)
    (hx : protoLT x.proto h.objs.length = true) :
    heapWF { h with objs := h.objs ++ [x] } = true := by
  rw [heapWF, List.all_eq_true]
  intro i hi
  rw [heapWF, List.all_eq_true] at hwf
  simp only [List.length_append, List.length_cons, List.length_nil] at hi
  have hi' : i < h.objs.length + 1 := List.mem_range.1 hi
  rcases Nat.lt_or_ge i h.objs.length with hlt | hge
  · rw [List.getElem?_append_left hlt]
    exact hwf i (List.mem_range.2 hlt)
  · have : i = h.objs.length := Nat.le_antisymm (Nat.lt_succ_iff.1 hi') hge
    subst this
    rw [List.getElem?_concat_length]
    simpa using hx

theorem heapWF_setOwn {h : Heap} (hwf : heapWF h = true)
    (o : Nat) (f : Field) (v : JSVal) : heapWF (setOwn h o f v) = true := by
  rw [heapWF, List.all_eq_true]
  intro i hi
  rw [length_setOwn] at hi
  rw [heapWF, List.all_eq_true] at hwf
  have hw := hwf i hi
  by_cases hio : i = o
  · subst hio
    cases hobj : h.objs[i]? with
    | none =>
      rw [setOwn_eq_of_none f v hobj, hobj]
      rfl
    | some obj =>
      rw [getElem?_setOwn_self f v hobj]
      rw [hobj] at hw
      exact hw
  · rw [getElem?_setOwn_ne h f v hio]
    exact hw

/-! ### Facts about `addLine`, `unshiftLine` and `subContext` -/

theorem readField_addLine_ne (h : Heap) (oid oid' : Nat) (l : String)
    {f : Field} (hne : f ≠ .code) :
    readField (addLine h oid l).1 oid' f = readField h oid' f := by
  unfold addLine
  cases hfo : findOwner h oid .code with
  | none => rfl
  | some p =>
    obtain ⟨o, v⟩ := p
    cases v <;> simp only [] <;>
      first | rfl | exact readField_setOwn_ne h o oid' _ hne

theorem readField_unshiftLine_ne (h : Heap) (oid oid' : Nat) (l : String)
    {f : Field} (hne : f ≠ .code) :
    readField (unshiftLine h oid l) oid' f = readField h oid' f := by
  unfold unshiftLine
  cases hfo : findOwner h oid .code with
  | none => rfl
  | some p =>
    obtain ⟨o, v⟩ := p
    cases v <;> simp only [] <;>
      first | rfl | exact readField_setOwn_ne h o oid' _ hne

theorem length_addLine (h : Heap) (oid : Nat) (l : String) :
    (addLine h oid l).1.objs.length = h.objs.length := by
  unfold addLine
  cases hfo : findOwner h oid .code with
  | none => rfl
  | some p =>
    obtain ⟨o, v⟩ := p
    cases v <;> simp only [] <;> first | rfl | exact length_setOwn ..

theorem nextID_addLine (h : Heap) (oid : Nat) (l : String) :
    (addLine h oid l).1.nextID = h.nextID := by
  unfold addLine
  cases hfo : findOwner h oid .code with
  | none => rfl
  | some p =>
    obtain ⟨o, v⟩ := p
    cases v <;> simp only [] <;> first | rfl | exact nextID_setOwn ..

theorem nextID_unshiftLine (h : Heap) (oid : Nat) (l : String) :
    (unshiftLine h oid l).nextID = h.nextID := by
  unfold unshiftLine
  cases hfo : findOwner h oid .code with
  | none => rfl
  | some p =>
    obtain ⟨o, v⟩ := p
    cases v <;> simp only [] <;> first | rfl | exact nextID_setOwn ..

theorem heapWF_addLine {h : Heap} (hwf : heapWF h = true)
    (oid : Nat) (l : String) : heapWF (addLine h oid l).1 = true := by
  unfold addLine
  cases hfo : findOwner h oid .code with
  | none => exact hwf
  | some p =>
    obtain ⟨o, v⟩ := p
    cases v <;> simp only [] <;> first | exact hwf | exact heapWF_setOwn hwf ..

theorem heapWF_unshiftLine {h : Heap} (hwf : heapWF h = true)
    (oid : Nat) (l : String) : heapWF (unshiftLine h oid l) = true := by
  unfold unshiftLine
  cases hfo : findOwner h oid .code with
  | none => exact hwf
  | some p =>
    obtain ⟨o, v⟩ := p
    cases v <;> simp only [] <;> first | exact hwf | exact heapWF_setOwn hwf ..

theorem heapWF_subContext {h : Heap} (hwf : heapWF h = true)
    {oid : Nat} (hoid : oid < h.objs.length) (k : Field) (v : JSVal) :
    heapWF (subContext h oid k v).1 = true :=
  heapWF_append hwf (by simpa [protoLT] using hoid)

/-- Reads of existing contexts are unaffected by deriving a new one. -/
theorem readField_subContext_old {h : Heap} {oid' : Nat}
    (hwf : heapWF h = true) (hoid' : oid' < h.objs.length)
    (oid : Nat) (k : Field) (v : JSVal) (f : Field) :
    readField (subContext h oid k v).1 oid' f = readField h oid' f :=
  readField_append hwf hoid' _ f

/-- Under well-formedness, any fuel above the starting index computes
the same read (prototype chains descend, so `oid + 1` steps always
suffice). -/
theorem ownAux_fuel {h : Heap} (hwf : heapWF h = true) :
    ∀ fuel oid, oid < fuel → ∀ f,
      ownAux h fuel oid f = ownAux h (oid + 1) oid f := by
  intro fuel
  induction fuel using Nat.strong_induction_on with
  | _ fuel ih =>
    intro oid hlt f
    match fuel, hlt with
    | fuel + 1, hlt =>
      rw [ownAux, ownAux]
      cases hobj : h.objs[oid]? with
      | none => rfl
      | some obj =>
        simp only []
        cases hown : getOwn obj f with
        | some w => simp only []
        | none =>
          simp only []
          cases hpr : obj.proto with
          | none => rfl
          | some p =>
            have hp : p < oid := heapWF_lt hwf hobj hpr
            have h1 : ownAux h fuel p f = ownAux h (p + 1) p f := by
              rcases Nat.eq_or_lt_of_le (Nat.succ_le_of_lt
                (Nat.lt_of_lt_of_le hp (Nat.lt_succ_iff.1 hlt))) with he | hl
              · rw [← he]
              · exact ih fuel (Nat.lt_succ_self fuel) p
                  (Nat.lt_of_succ_lt_succ (Nat.succ_lt_succ
                    (Nat.lt_of_lt_of_le hp (Nat.lt_succ_iff.1 hlt)))) f
            have h2 : ownAux h oid p f = ownAux h (p + 1) p f :=
              ih oid (Nat.lt_succ_iff.1 hlt |> Nat.lt_succ_of_le) p hp f
            simp only [h1, h2]

/-- One delegation step: when an object misses a field, its read
coincides with its prototype's read. -/
theorem findOwner_proto_step {h : Heap} {d c : Nat} {obj : CtxObj}
    (hwf : heapWF h = true) (hd : h.objs[d]? = some obj)
    (hp : obj.proto = some c) {f : Field} (hmiss : getOwn obj f = none) :
    findOwner h d f = findOwner h c f := by
  rw [findOwner, ownAux]
  simp only [hd, hmiss, hp]
  exact ownAux_fuel hwf d c (heapWF_lt hwf hd hp) f

/-- Prototypal delegation: an object owning exactly one field reads
that field from its own map and everything else live from its
prototype, in whatever (well-formed) heap state it is read. -/
theorem readField_delegate {h : Heap} {d c : Nat} {k : Field} {v : JSVal}
    (hwf : heapWF h = true) (hd : h.objs[d]? = some ⟨some c, [(k, v)]⟩) :
    readField h d k = v ∧
      ∀ f, f ≠ k → readField h d f = readField h c f := by
  have hself : getOwn (⟨some c, [(k, v)]⟩ : CtxObj) k = some v := by
    simp [getOwn]
  constructor
  · rw [readField, findOwner, ownAux]
    simp only [hd, hself]
    rfl
  · intro f hne
    have hmiss : getOwn (⟨some c, [(k, v)]⟩ : CtxObj) f = none := by
      simp [getOwn, Ne.symm hne]
    rw [readField, readField, findOwner_proto_step hwf hd rfl hmiss]

theorem readField_setOwn_self {h : Heap} {o : Nat} {obj : CtxObj}
    (hobj : h.objs[o]? = some obj) (f : Field) (w : JSVal) :
    readField (setOwn h o f w) o f = w := by
  rw [readField, findOwner, ownAux]
  simp only [getElem?_setOwn_self f w hobj, getOwn_setAssoc_self]
  rfl

/-! ### Claim C2 — live prototypal reads through `subContext` -/

/-- The object allocated by `subContext`. -/
theorem subContext_get_self (h : Heap) (c : Nat) (k : Field) (v : JSVal) :
    (subContext h c k v).1.objs[(subContext h c k v).2]? =
      some ⟨some c, [(k, v)]⟩ := by
  unfold subContext
  exact List.getElem?_concat_length ..

/-- C2: `subContext(k, v)` yields a context that reads `v` for `k`,
while every other attribute reads identically to the originating
context at the time of the read, not at derivation time: in any
well-formed heap state in which the derived object still has its
single override (mutations through the parent or the shared root
never touch it), a read of `f ≠ k` on the derived context equals the
read on the parent; in particular an assignment performed on the
parent after derivation is immediately visible through the derived
context. -/
theorem subContext_live_reads (h : Heap) (c : Nat) (k : Field) (v : JSVal)
    (hwf : heapWF h = true) (hc : c < h.objs.length) :
    readField (subContext h c k v).1 (subContext h c k v).2 k = v
  ∧ (∀ f, f ≠ k →
      readField (subContext h c k v).1 (subContext h c k v).2 f =
        readField (subContext h c k v).1 c f)
  ∧ (∀ h₂ : Heap, heapWF h₂ = true →
      h₂.objs[(subContext h c k v).2]? = some ⟨some c, [(k, v)]⟩ →
      ∀ f, f ≠ k → readField h₂ (subContext h c k v).2 f = readField h₂ c f)
  ∧ (∀ f, f ≠ k → ∀ w,
      readField (setOwn (subContext h c k v).1 c f w)
        (subContext h c k v).2 f = w) := by
  have hwf1 : heapWF (subContext h c k v).1 = true :=
    heapWF_subContext hwf hc k v
  have hd := subContext_get_self h c k v
  have hdel := readField_delegate hwf1 hd
  refine ⟨hdel.1, hdel.2, ?_, ?_⟩
  · intro h₂ hwf₂ hd₂ f hne
    exact (readField_delegate hwf₂ hd₂).2 f hne
  · intro f hne w
    have hobjc : h.objs[c]? = some (h.objs.get ⟨c, hc⟩) := by
      simp [List.getElem?_eq_getElem hc]
    have hc1 : (subContext h c k v).1.objs[c]? = some (h.objs.get ⟨c, hc⟩) := by
      unfold subContext
      simpa using (List.getElem?_append_left hc).trans hobjc
    have hd' : (setOwn (subContext h c k v).1 c f w).objs[(subContext h c k v).2]?
        = some ⟨some c, [(k, v)]⟩ := by
      rw [getElem?_setOwn_ne _ f w (by
        unfold subContext
        exact Nat.ne_of_gt hc)]
      exact hd
    have hwf2 : heapWF (setOwn (subContext h c k v).1 c f w) = true :=
      heapWF_setOwn hwf1 c f w
    rw [(readField_delegate hwf2 hd').2 f hne]
    exact readField_setOwn_self hc1 f w

/-- Witness for C2: deriving with `parentNode := 7` from a fresh root
reads `7` for `parentNode`, reads the root's `loopNumber` live, and
sees a later mutation of the root's `loopNumber`. -/
theorem subContext_live_reads_witness :
    readField (subContext (newCtx emptyHeap none).1 0 .parentNode (.num 7)).1
        (subContext (newCtx emptyHeap none).1 0 .parentNode (.num 7)).2
        .parentNode = .num 7
  ∧ readField
      (setOwn (subContext (newCtx emptyHeap none).1 0 .parentNode (.num 7)).1
        0 .loopNumber (.num 5))
      (subContext (newCtx emptyHeap none).1 0 .parentNode (.num 7)).2
      .loopNumber = .num 5 := by
  have hmain := subContext_live_reads (newCtx emptyHeap none).1 0
    .parentNode (.num 7) (by decide) (by decide)
  exact ⟨hmain.1, hmain.2.2.2 .loopNumber (by decide) (.num 5)⟩

/-! ### Claim C1 — the structural-violation guard of `withParent` -/

/-- C1 counterexample: on a freshly constructed root context (with
`allowMultipleRoots` unset), two successive root-level `withParent`
calls BOTH succeed — no structural-violation error is thrown on
either call.  `withParent` records the new parent only on the derived
context it returns (`subContext("parentNode", node)` does not mutate
the receiver), so the root's own `parentNode`/`parentTextNode` stay
`null` and the guard never fires from `withParent` calls alone.
This refutes the claim that the two calls fail. -/
theorem withParent_twice_on_fresh_root_succeeds :
    (withParent (newCtx emptyHeap none).1 0 1).isOk = true ∧
    (match withParent (newCtx emptyHeap none).1 0 1 with
     | .ok (h2, _) => (withParent h2 0 2).isOk
     | .error _ => false) = true := by
  constructor <;> rfl

/-- C1 (amended): `withParent` raises the structural-violation error
exactly in the state the guard tests: called on a context that is its
own root, with `allowMultipleRoots` falsy and a truthy `parentNode` or
`parentTextNode` (a state produced by external mutation, e.g. when the
template compiler records a root text node on the root context).  In
that state the failure is immediate and synchronous, happens before
any mutation, and yields the same error on every call, regardless of
the node identifier passed. -/
theorem withParent_structural_violation (h : Heap) (oid : Nat) (node : Int)
    (hflag : truthy (readField h oid .allowMultipleRoots) = false)
    (hroot : readField h oid .rootContext = .ctxRef oid)
    (hpar : truthy (readField h oid .parentNode) = true ∨
      truthy (readField h oid .parentTextNode) = true) :
    withParent h oid node =
      .error "A template should not have more than one root node" := by
  unfold withParent
  rw [if_pos]
  refine ⟨by simp [hflag], hroot, ?_⟩
  rcases hpar with hp | hp
  · exact Or.inl (by simp [hp])
  · exact Or.inr (by simp [hp])

/-- Witness for the amended C1: a root whose `parentTextNode` was set
externally (as the template compiler does for a root text node) makes
`withParent` fail with the structural-violation error. -/
theorem withParent_structural_violation_witness :
    withParent (setOwn (newCtx emptyHeap none).1 0 .parentTextNode (.num 3))
        0 5 =
      .error "A template should not have more than one root node" :=
  withParent_structural_violation
    (setOwn (newCtx emptyHeap none).1 0 .parentTextNode (.num 3)) 0 5
    (by decide) (by decide) (Or.inr (by decide))

/-! ### Claim C4 — persistence of `rootNode` -/

/-- C4 counterexample: `rootNode` is guarded by JS truthiness, not by
a null check, so the non-null node id `0` does get assigned by the
first `withParent` call and is then overwritten by the next one: the
first non-null value assigned does NOT persist. -/
theorem rootNode_zero_overwritten :
    (match withParent (newCtx emptyHeap none).1 0 0 with
     | .ok (h1, d1) =>
        decide (readField h1 0 .rootNode = .num 0) &&
        (match withParent h1 d1 17 with
         | .ok (h2, _) => decide (readField h2 0 .rootNode = .num 17)
         | .error _ => false)
     | .error _ => false) = true := by
  rfl

/-- C4 (amended): `rootNode` is write-once up to truthiness: once the
root of a chain holds a truthy (non-zero) `rootNode`, every later
`withParent` call through any context of that chain leaves it
unchanged.  (A `rootNode` of `0` is falsy and can be overwritten.) -/
theorem withParent_preserves_truthy_rootNode (h : Heap) (oid r : Nat)
    (node : Int) (hwf : heapWF h = true)
    (hr : readField h oid .rootContext = .ctxRef r)
    (hrlt : r < h.objs.length)
    (htr : truthy (readField h r .rootNode) = true) :
    ∀ res, withParent h oid node = .ok res →
      readField res.1 r .rootNode = readField h r .rootNode := by
  intro res hok
  have hro : rootOf h oid = r := by unfold rootOf; rw [hr]
  unfold withParent at hok
  simp only [] at hok
  split at hok
  · simp at hok
  · rw [hro, htr] at hok
    simp only [eq_self_iff_true, if_true] at hok
    rw [hro] at hok
    split at hok
    · rw [← Except.ok.inj hok]
      rw [readField_subContext_old (heapWF_addLine hwf ..)
        (by rw [length_addLine]; exact hrlt)]
      exact readField_addLine_ne h oid r _ (by simp)
    · rw [← Except.ok.inj hok]
      exact readField_subContext_old hwf hrlt _ _ _ _

/-! ### More computation lemmas -/

theorem ownAux_objs_eq {h₁ h₂ : Heap} (he : h₁.objs = h₂.objs) :
    ∀ fuel oid f, ownAux h₁ fuel oid f = ownAux h₂ fuel oid f := by
  intro fuel
  induction fuel with
  | zero => intro oid f; rfl
  | succ m ih =>
    intro oid f
    rw [ownAux, ownAux, he]
    cases hobj : h₂.objs[oid]? with
    | none => rfl
    | some obj =>
      simp only []
      cases getOwn obj f with
      | some w => simp only []
      | none =>
        simp only []
        cases obj.proto with
        | none => rfl
        | some p => exact ih p f

theorem findOwner_objs_eq {h₁ h₂ : Heap} (he : h₁.objs = h₂.objs)
    (oid : Nat) (f : Field) : findOwner h₁ oid f = findOwner h₂ oid f :=
  ownAux_objs_eq he _ oid f

theorem readField_objs_eq {h₁ h₂ : Heap} (he : h₁.objs = h₂.objs)
    (oid : Nat) (f : Field) : readField h₁ oid f = readField h₂ oid f := by
  rw [readField, readField, findOwner_objs_eq he]

/-- Bumping the static id counter changes no field read. -/
theorem readField_bumpID (h : Heap) (n : Int) (oid : Nat) (f : Field) :
    readField { h with nextID := n } oid f = readField h oid f :=
  @readField_objs_eq { h with nextID := n } h rfl oid f

theorem findOwner_bumpID (h : Heap) (n : Int) (oid : Nat) (f : Field) :
    findOwner { h with nextID := n } oid f = findOwner h oid f :=
  @findOwner_objs_eq { h with nextID := n } h rfl oid f

theorem readField_of_findOwner {h : Heap} {oid o : Nat} {f : Field}
    {w : JSVal} (hfo : findOwner h oid f = some (o, w)) :
    readField h oid f = w := by
  rw [readField, hfo]
  rfl

theorem addLine_spec {h : Heap} {oid o : Nat} {cs : List String}
    (l : String) (hcode : findOwner h oid .code = some (o, .strList cs)) :
    addLine h oid l =
      (setOwn h o .code (.strList (cs ++
        [indentPrefix (asNum (readField h oid .indentLevel)) ++ l])),
       cs.length) := by
  unfold addLine
  simp only [hcode]

theorem unshiftLine_spec {h : Heap} {oid o : Nat} {cs : List String}
    (l : String) (hcode : findOwner h oid .code = some (o, .strList cs)) :
    unshiftLine h oid l = setOwn h o .code (.strList (l :: cs)) := by
  unfold unshiftLine
  simp only [hcode]

theorem findOwner_pushFlagLine {h : Heap} {oid o : Nat} {cs : List String}
    (flag : Field) (l : String)
    (hcode : findOwner h oid .code = some (o, .strList cs)) :
    findOwner (pushFlagLine h oid flag l) oid .code =
      some (o, .strList
        ((if truthy (readField h oid flag) then [l] else []) ++ cs)) := by
  unfold pushFlagLine
  split
  · rw [unshiftLine_spec l hcode]
    have := findOwner_setOwn_owner (.strList (l :: cs)) hcode
    simpa using this
  · simpa using hcode

theorem readField_pushFlagLine_ne {f : Field} (hne : f ≠ .code)
    (h : Heap) (oid : Nat) (flag : Field) (l : String) (oid' : Nat) :
    readField (pushFlagLine h oid flag l) oid' f = readField h oid' f := by
  unfold pushFlagLine
  split
  · exact readField_unshiftLine_ne h oid oid' l hne
  · rfl

theorem nextID_pushFlagLine (h : Heap) (oid : Nat) (flag : Field)
    (l : String) : (pushFlagLine h oid flag l).nextID = h.nextID := by
  unfold pushFlagLine
  split
  · exact nextID_unshiftLine ..
  · rfl

/-- Characterisation of `generateCode`: each of the six flags, tested
on the original heap, contributes its declaration line conditionally,
and the lines end up in front of the accumulated code in the reverse
of the unshift order. -/
theorem generateCode_spec (h : Heap) (oid o : Nat) (cs : List String)
    (hcode : findOwner h oid .code = some (o, .strList cs)) :
    (generateCode h oid).1 =
      (if truthy (readField h oid .shouldDefineUtils) then
        ["    let utils = this.constructor.utils;"] else []) ++
      ((if truthy (readField h oid .shouldDefineQWeb) then
        ["    let QWeb = this.constructor;"] else []) ++
      ((if truthy (readField h oid .shouldDefineParent) then
        [if truthy (readField h oid .hasParentWidget) then
          "    let parent = extra.parent;" else "    let parent = context;"]
       else []) ++
      ((if truthy (readField h oid .shouldDefineRefs) then
        ["    context.__owl__.refs = context.__owl__.refs || \x7b\x7d;"]
       else []) ++
      ((if truthy (readField h oid .shouldDefineScope) then
        ["    let scope = Object.create(context);"] else []) ++
      ((if truthy (readField h oid .shouldDefineResult) then
        ["    let result;"] else []) ++ cs))))) := by
  unfold generateCode
  simp only []
  have k1 := findOwner_pushFlagLine .shouldDefineResult
    "    let result;" hcode
  have k2 := findOwner_pushFlagLine .shouldDefineScope
    "    let scope = Object.create(context);" k1
  have k3 := findOwner_pushFlagLine .shouldDefineRefs
    "    context.__owl__.refs = context.__owl__.refs || \x7b\x7d;" k2
  have k4 := findOwner_pushFlagLine .shouldDefineParent
    (if truthy (readField (pushFlagLine (pushFlagLine (pushFlagLine h oid
        .shouldDefineResult "    let result;") oid .shouldDefineScope
        "    let scope = Object.create(context);") oid .shouldDefineRefs
        "    context.__owl__.refs = context.__owl__.refs || \x7b\x7d;")
        oid .hasParentWidget) then
      "    let parent = extra.parent;" else "    let parent = context;") k3
  have k5 := findOwner_pushFlagLine .shouldDefineQWeb
    "    let QWeb = this.constructor;" k4
  have k6 := findOwner_pushFlagLine .shouldDefineUtils
    "    let utils = this.constructor.utils;" k5
  simp only [readField_of_findOwner k6]
  simp [readField_pushFlagLine_ne]

/-- The context object and heap produced by the constructor. -/
theorem newCtx_spec (h : Heap) (name : Option String) :
    newCtx h name =
      (setOwn
        { h with objs := h.objs ++ [⟨none, defaultOwn h.objs.length name⟩] }
        h.objs.length .code (.strList ["    let h = this.h;"]),
       h.objs.length) := by
  have hget : ({ h with
      objs := h.objs ++ [⟨none, defaultOwn h.objs.length name⟩] } :
        Heap).objs[h.objs.length]? =
      some ⟨none, defaultOwn h.objs.length name⟩ :=
    List.getElem?_concat_length ..
  have hfo : findOwner
      { h with objs := h.objs ++ [⟨none, defaultOwn h.objs.length name⟩] }
      h.objs.length .code = some (h.objs.length, .strList []) := by
    rw [findOwner, ownAux]
    simp only [hget]
    rfl
  have hind : readField
      { h with objs := h.objs ++ [⟨none, defaultOwn h.objs.length name⟩] }
      h.objs.length .indentLevel = .num 0 := by
    rw [readField, findOwner, ownAux]
    simp only [hget]
    rfl
  unfold newCtx
  simp only []
  rw [addLine_spec "let h = this.h;" hfo, hind]
  rfl

/-- Any non-`code` field of a fresh context reads its initial value. -/
theorem newCtx_read (h : Heap) (name : Option String) (f : Field)
    (hne : f ≠ .code) :
    readField (newCtx h name).1 (newCtx h name).2 f =
      (getOwn ⟨none, defaultOwn (newCtx h name).2 name⟩ f).getD .undefined := by
  rw [newCtx_spec]
  simp only []
  rw [readField_setOwn_ne _ _ _ _ hne]
  rw [readField, findOwner, ownAux]
  simp only [List.getElem?_concat_length]
  cases hgo : getOwn ⟨none, defaultOwn h.objs.length name⟩ f with
  | some w => simp [hgo]
  | none => simp [hgo]

/-! ### Claim C8 — the prologue assembly of `generateCode` -/

/-- C8: `generateCode` inspects the six should-define flags in the
fixed order result, scope, refs, parent, QWeb-handle, utils, and for
each set flag prepends the corresponding declaration to the front of
the accumulated instruction sequence (so the finished sequence carries
them in reverse order of prepending); every flag is independent and a
cleared flag contributes no line; the parent declaration reads
`extra.parent` when `hasParentWidget` is set and `context` otherwise. -/
theorem generateCode_prologue (h : Heap) (oid o : Nat) (cs : List String)
    (hcode : findOwner h oid .code = some (o, .strList cs)) :
    (generateCode h oid).1 =
      (if truthy (readField h oid .shouldDefineUtils) then
        ["    let utils = this.constructor.utils;"] else []) ++
      ((if truthy (readField h oid .shouldDefineQWeb) then
        ["    let QWeb = this.constructor;"] else []) ++
      ((if truthy (readField h oid .shouldDefineParent) then
        [if truthy (readField h oid .hasParentWidget) then
          "    let parent = extra.parent;" else "    let parent = context;"]
       else []) ++
      ((if truthy (readField h oid .shouldDefineRefs) then
        ["    context.__owl__.refs = context.__owl__.refs || \x7b\x7d;"]
       else []) ++
      ((if truthy (readField h oid .shouldDefineScope) then
        ["    let scope = Object.create(context);"] else []) ++
      ((if truthy (readField h oid .shouldDefineResult) then
        ["    let result;"] else []) ++ cs))))) :=
  generateCode_spec h oid o cs hcode

/-- Witness for C8: with the scope and parent flags set (and no parent
widget), the assembled code is the parent line, then the scope line,
then the result line, in front of the constructor's `h` binding. -/
theorem generateCode_prologue_witness :
    (generateCode (setOwn (setOwn (newCtx emptyHeap none).1 0
        .shouldDefineScope (.bool true)) 0 .shouldDefineParent (.bool true))
      0).1 =
      ["    let parent = context;", "    let scope = Object.create(context);",
       "    let result;", "    let h = this.h;"] := by
  rw [generateCode_prologue _ 0 0 ["    let h = this.h;"] (by decide)]
  decide

/-! ### Claim C10 — the constructor's initial instruction -/

/-- C10: constructing a `CompilationContext` immediately emits one
instruction, so the fresh context's sequence is exactly
`["    let h = this.h;"]`; the first subsequent `addLine` returns
index 1, not 0; and final assembly prepends the prologue in front of
this binding — on an otherwise untouched context the assembled
sequence is the result declaration followed by the `h` binding. -/
theorem newCtx_initial_line (h : Heap) (name : Option String) :
    readField (newCtx h name).1 (newCtx h name).2 .code =
      .strList ["    let h = this.h;"]
  ∧ (∀ l, (addLine (newCtx h name).1 (newCtx h name).2 l).2 = 1)
  ∧ (generateCode (newCtx h name).1 (newCtx h name).2).1 =
      ["    let result;", "    let h = this.h;"] := by
  have hfo0 : findOwner
      { h with objs := h.objs ++ [⟨none, defaultOwn h.objs.length name⟩] }
      h.objs.length .code = some (h.objs.length, .strList []) := by
    rw [findOwner, ownAux]
    simp only [List.getElem?_concat_length]
    rfl
  have hfo : findOwner (newCtx h name).1 (newCtx h name).2 .code =
      some ((newCtx h name).2, .strList ["    let h = this.h;"]) := by
    rw [newCtx_spec]
    exact findOwner_setOwn_owner _ hfo0
  refine ⟨readField_of_findOwner hfo, ?_, ?_⟩
  · intro l
    rw [addLine_spec l hfo]
    rfl
  · rw [generateCode_spec _ _ _ _ hfo]
    rw [newCtx_read h name .shouldDefineUtils (by simp),
      newCtx_read h name .shouldDefineQWeb (by simp),
      newCtx_read h name .shouldDefineParent (by simp),
      newCtx_read h name .shouldDefineRefs (by simp),
      newCtx_read h name .shouldDefineScope (by simp),
      newCtx_read h name .shouldDefineResult (by simp)]
    rfl

/-! ### Claim C5 — `generateTemplateKey` outside loops -/

/-- C5: on a context whose `loopNumber` is `0` and whose `hasKey0`
flag is falsy, `generateTemplateKey(pfx)` returns the quoted literal
`'pfx__<id>__'` built from the freshly allocated id, and its only
state change is the id-counter bump: no instruction line is appended
(the heap's objects — including every `code` array — are exactly
those of the input heap). -/
theorem generateTemplateKey_no_loop (h : Heap) (oid : Nat) (pfx : String)
    (hln : readField h oid .loopNumber = .num 0)
    (hk0 : truthy (readField h oid .hasKey0) = false) :
    generateTemplateKey h oid pfx =
      ("'" ++ pfx ++ "__" ++ toString h.nextID ++ "__'",
       { h with nextID := h.nextID + 1 }) := by
  unfold generateTemplateKey
  simp only [generateID]
  rw [if_pos]
  exact ⟨by rw [readField_bumpID]; exact hln,
    by rw [readField_bumpID, hk0]; simp⟩

/-- Witness for C5: on a fresh root context, `generateTemplateKey "x"`
returns `'x__1__'` and appends nothing. -/
theorem generateTemplateKey_no_loop_witness :
    generateTemplateKey (newCtx emptyHeap none).1 0 "x" =
      ("'x__1__'",
       { (newCtx emptyHeap none).1 with
          nextID := (newCtx emptyHeap none).1.nextID + 1 }) :=
  generateTemplateKey_no_loop (newCtx emptyHeap none).1 0 "x"
    (by decide) (by decide)

/-! ### Claim C6 — `generateTemplateKey` inside loops -/

/-- C6: when the context is inside a loop (or has an explicit level-0
key), `generateTemplateKey(pfx)` appends exactly one instruction —
binding `k<id>` to a composite template-string key that embeds the
iteration variables `key<i>` for every level from `start` (0 when
`hasKey0` is truthy, else 1) up to `loopNumber` inclusive — and
returns the binding's name `k<id>`, not a quoted literal; the id
counter advances by one.  With `loopNumber = 1` and `hasKey0` falsy
the emitted key embeds exactly `key1`. -/
theorem generateTemplateKey_in_loop (h : Heap) (oid o : Nat) (pfx : String)
    (cs : List String) (L : Int)
    (hln : readField h oid .loopNumber = .num L)
    (hcond : ¬ (L = 0 ∧ truthy (readField h oid .hasKey0) = false))
    (hcode : findOwner h oid .code = some (o, .strList cs)) :
    (generateTemplateKey h oid pfx).1 = "k" ++ toString h.nextID
  ∧ readField (generateTemplateKey h oid pfx).2 oid .code =
      .strList (cs ++
        [indentPrefix (asNum (readField h oid .indentLevel)) ++
          ("let k" ++ toString h.nextID ++ " = " ++
            templateKeyExpr pfx h.nextID
              (truthy (readField h oid .hasKey0)) L ++ "`;")])
  ∧ (generateTemplateKey h oid pfx).2.nextID = h.nextID + 1 := by
  have hb := readField_bumpID h (h.nextID + 1) oid
  have hcb := findOwner_bumpID h (h.nextID + 1) oid .code
  unfold generateTemplateKey
  simp only [generateID]
  rw [if_neg]
  · simp only [hb, hcb, hln, asNum]
    rw [addLine_spec _ (hcb.trans hcode)]
    refine ⟨by trivial, ?_, ?_⟩
    · simp only []
      rw [readField_of_findOwner (findOwner_setOwn_owner _ (hcb.trans hcode))]
      simp only [readField_bumpID, hln, asNum]
    · simp only [nextID_setOwn]
  · rw [hb, hb, hln]
    intro hcc
    exact hcond ⟨by simpa using hcc.1, by simpa using hcc.2⟩

/-- Witness for C6: a fresh root context with `loopNumber` set to `1`
(as the loop directive does) emits one binding line embedding `key1`
and returns `k1`. -/
theorem generateTemplateKey_in_loop_witness :
    (generateTemplateKey
      (setOwn (newCtx emptyHeap none).1 0 .loopNumber (.num 1)) 0 "x").1 =
      "k1"
  ∧ readField (generateTemplateKey
      (setOwn (newCtx emptyHeap none).1 0 .loopNumber (.num 1)) 0 "x").2
      0 .code =
      .strList ["    let h = this.h;",
        "    let k1 = `x__1__$\x7bkey1\x7d__`;"] := by
  have hmain := generateTemplateKey_in_loop
    (setOwn (newCtx emptyHeap none).1 0 .loopNumber (.num 1)) 0 0 "x"
    ["    let h = this.h;"] 1 (by decide) (by decide) (by decide)
  exact ⟨hmain.1, by rw [hmain.2.1]; decide⟩

/-! ### Structure of the regex scan -/

theorem findClose_eq : ∀ {l t r : List Char}, findClose l = some (t, r) →
    l = t ++ rbrace :: rbrace :: r := by
  intro l
  induction l with
  | nil => intro t r hh; simp [findClose] at hh
  | cons c cs ih =>
    intro t r hh
    rw [findClose] at hh
    split at hh
    case isTrue hcc =>
      have hp := Option.some.inj hh
      have ht : t = [] := (congrArg Prod.fst hp).symm
      have hr : r = cs.tail := (congrArg Prod.snd hp).symm
      subst ht; subst hr
      obtain ⟨hc, hhd⟩ := hcc
      subst hc
      cases cs with
      | nil => simp at hhd
      | cons c2 cs' =>
        simp only [List.head?_cons, Option.some.injEq] at hhd
        subst hhd
        rfl
    case isFalse h1 =>
      split at hh
      case isTrue => exact Option.noConfusion hh
      case isFalse h2 =>
        cases hfc : findClose cs with
        | none => rw [hfc] at hh; exact Option.noConfusion hh
        | some p =>
          rw [hfc] at hh
          obtain ⟨t', r'⟩ := p
          simp at hh
          obtain ⟨ht, hr⟩ := hh
          subst ht; subst hr
          rw [ih hfc]
          rfl

theorem markerSplit_eq : ∀ {l t r : List Char}, markerSplit l = some (t, r) →
    l = lbrace :: lbrace :: (t ++ rbrace :: rbrace :: r) := by
  intro l t r hh
  match l with
  | [] => simp [markerSplit] at hh
  | [c] => simp [markerSplit] at hh
  | c1 :: c2 :: rest =>
    rw [markerSplit] at hh
    split at hh
    case isTrue hcc =>
      obtain ⟨h1, h2⟩ := hcc
      subst h1; subst h2
      rw [findClose_eq hh]
    case isFalse => exact Option.noConfusion hh

theorem markerSplit_length {l t r : List Char}
    (hh : markerSplit l = some (t, r)) : r.length + 4 ≤ l.length := by
  rw [markerSplit_eq hh]
  simp

/-- The scan is a decomposition of the input: replacing each match by
its own matched text restores the original string — matches come from
the string and the literal text around them is untouched. -/
theorem scanAux_reassemble :
    ∀ fuel l, l.length ≤ fuel → reassembleSegs (scanAux fuel l) = l := by
  intro fuel
  induction fuel with
  | zero =>
    intro l hl
    have : l = [] := List.eq_nil_of_length_eq_zero (Nat.le_zero.1 hl)
    subst this; rfl
  | succ n ih =>
    intro l hl
    cases l with
    | nil => rfl
    | cons c cs =>
      rw [scanAux]
      cases hm : markerSplit (c :: cs) with
      | some p =>
        obtain ⟨t, rest⟩ := p
        simp only []
        have hrest : rest.length ≤ n := by
          have := markerSplit_length hm
          simp only [List.length_cons] at this hl
          omega
        have hrw := ih rest hrest
        simp only [reassembleSegs, List.map_cons, List.flatten_cons,
          segChars] at hrw ⊢
        rw [hrw, markerSplit_eq hm]
        simp
      | none =>
        simp only []
        have hcs : cs.length ≤ n := by
          simp only [List.length_cons] at hl
          omega
        have hrw := ih cs hcs
        simp only [reassembleSegs, List.map_cons, List.flatten_cons,
          segChars] at hrw ⊢
        rw [hrw]
        rfl

theorem scanSegs_reassemble (l : List Char) :
    reassembleSegs (scanSegs l) = l :=
  scanAux_reassemble l.length l (Nat.le_refl _)

/-! ### `formatExpression` and the replacement pass -/

theorem formatExpression_fst
    (cexpr : String → List (String × QWebVar) → String → String)
    (h : Heap) (oid : Nat) (e : String) :
    (formatExpression cexpr h oid e).1 =
      cexpr e (varsOf h oid) (scopeNameOf h oid) := by
  unfold formatExpression varsOf scopeNameOf
  simp [readField_setOwn_ne]

theorem formatExpression_preserves
    (cexpr : String → List (String × QWebVar) → String → String)
    (h : Heap) (oid : Nat) (e : String) :
    varsOf (formatExpression cexpr h oid e).2 oid = varsOf h oid
  ∧ scopeNameOf (formatExpression cexpr h oid e).2 oid = scopeNameOf h oid
  ∧ (formatExpression cexpr h oid e).2.nextID = h.nextID := by
  unfold formatExpression varsOf scopeNameOf
  refine ⟨?_, ?_, ?_⟩ <;> simp [readField_setOwn_ne, nextID_setOwn]

theorem renderThread_all_lit
    (cexpr : String → List (String × QWebVar) → String → String)
    (oid : Nat) :
    ∀ (segs : List Seg) (h : Heap), segs.all Seg.isLit = true →
      renderThread cexpr h oid segs = (reassembleSegs segs, h) := by
  intro segs
  induction segs with
  | nil => intro h _; rfl
  | cons sg rest ih =>
    intro h hall
    cases sg with
    | lit c =>
      simp only [List.all_cons, Bool.and_eq_true] at hall
      rw [renderThread]
      rw [ih h hall.2]
      simp [reassembleSegs, segChars]
    | marker t =>
      simp [List.all_cons, Seg.isLit] at hall

/-- The replacement pass replaces exactly the markers: its output is
the concatenation, over the segments, of the single literal character
or of `$\x7b …formatted content… \x7d`, with the formatted form taken
against the context's variable mapping and active scope name (which
the pass itself never changes). -/
theorem renderThread_map
    (cexpr : String → List (String × QWebVar) → String → String)
    (oid : Nat) :
    ∀ (segs : List Seg) (h : Heap),
      (renderThread cexpr h oid segs).1 =
        (segs.map (fun sg =>
          match sg with
          | .lit c => [c]
          | .marker t => '$' :: lbrace ::
              (cexpr (String.mk t) (varsOf h oid) (scopeNameOf h oid)).data
              ++ [rbrace])).flatten
    ∧ varsOf (renderThread cexpr h oid segs).2 oid = varsOf h oid
    ∧ scopeNameOf (renderThread cexpr h oid segs).2 oid =
        scopeNameOf h oid := by
  intro segs
  induction segs with
  | nil => intro h; exact ⟨rfl, rfl, rfl⟩
  | cons sg rest ih =>
    intro h
    cases sg with
    | lit c =>
      obtain ⟨h1, h2, h3⟩ := ih h
      exact ⟨by simp [renderThread, h1], by simp [renderThread, h2],
        by simp [renderThread, h3]⟩
    | marker t =>
      obtain ⟨hv, hs, -⟩ := formatExpression_preserves cexpr h oid (String.mk t)
      obtain ⟨h1, h2, h3⟩ := ih (formatExpression cexpr h oid (String.mk t)).2
      refine ⟨?_, ?_, ?_⟩
      · rw [renderThread]
        simp only [List.map_cons, List.flatten_cons]
        rw [h1, hv, hs, formatExpression_fst]
        simp
      · rw [renderThread]
        simp only []
        rw [h2, hv]
      · rw [renderThread]
        simp only []
        rw [h3, hs]

theorem interpMatches_eq_nil {s : String}
    (hall : (scanSegs s.data).all Seg.isLit = true) :
    interpMatches s = [] := by
  unfold interpMatches
  generalize hL : scanSegs s.data = L at hall
  clear hL
  induction L with
  | nil => rfl
  | cons sg rest ih =>
    cases sg with
    | lit c =>
      simp only [List.all_cons, Bool.and_eq_true] at hall
      simpa [List.filterMap_cons] using ih hall.2
    | marker t => simp [List.all_cons, Seg.isLit] at hall

/-! ### Claim C7 — `interpolate` -/

/-- C7: the regex scan decomposes the input exactly (reassembling the
matches and the untouched surrounding literal text restores `s`);
`interpolate` returns the parenthesised formatted inner expression
precisely when the first match spans the whole string, and otherwise
a backtick-wrapped composite in which each match is replaced by `$`,
an opening brace, its formatted content and a closing brace while
literal text is kept; a string without any match becomes the wrapped
literal itself, unchanged. -/
theorem interpolate_spec
    (cexpr : String → List (String × QWebVar) → String → String)
    (h : Heap) (oid : Nat) (s : String) :
    String.mk (reassembleSegs (scanSegs s.data)) = s
  ∧ (interpolate cexpr h oid s).1 =
      (match (interpMatches s).head? with
       | some m =>
         if m.length = s.data.length then
           "(" ++ (formatExpression cexpr h oid (slice2m2 s)).1 ++ ")"
         else
           "`" ++ String.mk (renderThread cexpr h oid (scanSegs s.data)).1
             ++ "`"
       | none =>
           "`" ++ String.mk (renderThread cexpr h oid (scanSegs s.data)).1
             ++ "`")
  ∧ (renderThread cexpr h oid (scanSegs s.data)).1 =
      ((scanSegs s.data).map (fun sg =>
        match sg with
        | .lit c => [c]
        | .marker t => '$' :: lbrace ::
            (cexpr (String.mk t) (varsOf h oid) (scopeNameOf h oid)).data
            ++ [rbrace])).flatten
  ∧ ((scanSegs s.data).all Seg.isLit = true →
      (interpolate cexpr h oid s).1 = "`" ++ s ++ "`") := by
  have hre : String.mk (reassembleSegs (scanSegs s.data)) = s := by
    rw [scanSegs_reassemble]
  refine ⟨hre, ?_, (renderThread_map cexpr oid (scanSegs s.data) h).1, ?_⟩
  · unfold interpolate
    cases (interpMatches s).head? with
    | none => rfl
    | some m =>
      simp only []
      split <;> rfl
  · intro hall
    unfold interpolate
    rw [interpMatches_eq_nil hall]
    simp only []
    rw [renderThread_all_lit cexpr oid _ h hall]
    simp only []
    rw [hre]
    rfl

/-- Witness for C7: a marker-free string is returned wrapped in
backticks, unchanged. -/
theorem interpolate_spec_witness :
    (interpolate (fun e _ _ => e) (newCtx emptyHeap none).1 0 "ab").1 =
      "`ab`" :=
  (interpolate_spec (fun e _ _ => e) (newCtx emptyHeap none).1 0
    "ab").2.2.2 (by decide)

/-! ### Claim C9 — `getValue` under acyclic indirection chains -/

theorem getValueFuel_absent {vars : List (String × QWebVar)} {v : String}
    (hn : qlookup vars v = none) :
    ∀ n, getValueFuel vars n v = v := by
  intro n
  cases n with
  | zero => rfl
  | succ m =>
    rw [getValueFuel, hn]

/-- Every intermediate result of the fuelled resolver lies on the
indirection chain, and the fuel is only ever insufficient when it is
exhausted exactly. -/
theorem getValueFuel_on_chain (vars : List (String × QWebVar)) :
    ∀ fuel v, ∃ k, k ≤ fuel ∧
      chainIter vars k v = some (getValueFuel vars fuel v) ∧
      (qlookup vars (getValueFuel vars fuel v) = none ∨ k = fuel) := by
  intro fuel
  induction fuel with
  | zero => intro v; exact ⟨0, Nat.le_refl _, rfl, Or.inr rfl⟩
  | succ n ih =>
    intro v
    cases hq : qlookup vars v with
    | none =>
      refine ⟨0, Nat.zero_le _, ?_, Or.inl ?_⟩
      · rw [getValueFuel]
        simp only [hq]
        rfl
      · rw [getValueFuel]
        simp only [hq]
    | some w =>
      obtain ⟨k, hk, hc, hd⟩ := ih w
      refine ⟨k + 1, Nat.succ_le_succ hk, ?_, ?_⟩
      · rw [chainIter]
        simp only [hq]
        rw [getValueFuel]
        simp only [hq]
        exact hc
      · rw [getValueFuel]
        simp only [hq]
        rcases hd with hd | hd
        · exact Or.inl hd
        · exact Or.inr (by rw [hd])

/-- Peeling a chain step from the far end. -/
theorem chainIter_succ (vars : List (String × QWebVar)) :
    ∀ n v, chainIter vars (n + 1) v =
      (chainIter vars n v).bind (qlookup vars) := by
  intro n
  induction n with
  | zero =>
    intro v
    cases hq : qlookup vars v <;> simp [chainIter, hq]
  | succ m ih =>
    intro v
    cases hq : qlookup vars v with
    | none => simp [chainIter, hq]
    | some b =>
      rw [chainIter]
      simp only [hq]
      rw [ih b, chainIter]
      simp only [hq]

/-- Chain composition. -/
theorem chainIter_add (vars : List (String × QWebVar)) :
    ∀ m n v, chainIter vars (m + n) v =
      (chainIter vars m v).bind (chainIter vars n) := by
  intro m
  induction m with
  | zero => intro n v; rw [Nat.zero_add]; rfl
  | succ k ih =>
    intro n v
    have hsa : k + 1 + n = (k + n) + 1 := by omega
    rw [hsa, chainIter, chainIter]
    cases hq : qlookup vars v with
    | none => rfl
    | some b => exact ih n b

theorem chainIter_some_of_succ {vars : List (String × QWebVar)}
    {n : Nat} {v x : String} (hx : chainIter vars (n + 1) v = some x) :
    ∃ y, chainIter vars n v = some y ∧ qlookup vars y = some x := by
  rw [chainIter_succ] at hx
  cases hy : chainIter vars n v with
  | none => rw [hy] at hx; simp at hx
  | some y =>
    rw [hy] at hx
    exact ⟨y, rfl, hx⟩

theorem chainIter_some_mono {vars : List (String × QWebVar)} :
    ∀ {n : Nat} {v x : String}, chainIter vars n v = some x →
      ∀ j, j ≤ n → ∃ y, chainIter vars j v = some y := by
  intro n
  induction n with
  | zero =>
    intro v x hx j hj
    have : j = 0 := Nat.le_zero.1 hj
    subst this
    exact ⟨v, rfl⟩
  | succ m ih =>
    intro v x hx j hj
    rcases Nat.lt_or_ge j (m + 1) with hlt | hge
    · obtain ⟨y, hy, -⟩ := chainIter_some_of_succ hx
      exact ih hy j (Nat.lt_succ_iff.1 hlt)
    · have : j = m + 1 := Nat.le_antisymm hj hge
      subst this
      exact ⟨x, hx⟩

/-- A key of the mapping that the chain passes through. -/
theorem mem_keys_of_qlookup {vars : List (String × QWebVar)}
    {y w : String} (hq : qlookup vars y = some w) :
    y ∈ vars.map Prod.fst := by
  unfold qlookup at hq
  cases hf : vars.find? (fun p => p.1 == y) with
  | none => rw [hf] at hq; simp at hq
  | some p =>
    have hmem := List.mem_of_find?_eq_some hf
    have hbeq := List.find?_some hf
    have : p.1 = y := by simpa using hbeq
    subst this
    exact List.mem_map_of_mem Prod.fst hmem

/-- C9: assuming the variable mapping's indirection chains are acyclic
(no chain of references reaches itself), `getValue` resolves a name by
following its indirection chain to a value that is reached at some
finite chain position and is not itself a key of the mapping; a name
absent from the mapping is returned unchanged. -/
theorem getValue_resolves (vars : List (String × QWebVar)) (v : String)
    (hA : Acyclic vars) :
    (∃ n, chainIter vars n v = some (getValue vars v))
  ∧ qlookup vars (getValue vars v) = none
  ∧ (qlookup vars v = none → getValue vars v = v) := by
  obtain ⟨k, hk, hc, hd⟩ := getValueFuel_on_chain vars (vars.length + 1) v
  refine ⟨⟨k, hc⟩, ?_, fun hn => getValueFuel_absent hn _⟩
  rcases hd with hd | hd
  · exact hd
  · exfalso
    subst hd
    -- the chain performed vars.length + 1 successful steps: positions
    -- 0 .. vars.length are all keys of the mapping, which has only
    -- vars.length entries — two positions carry the same key, giving a
    -- chain that reaches itself.
    have hdef : ∀ j, j ≤ vars.length + 1 → ∃ y, chainIter vars j v = some y :=
      fun j hj => chainIter_some_mono hc j hj
    have hkey : ∀ j, j ≤ vars.length →
        ((chainIter vars j v).getD "") ∈ vars.map Prod.fst := by
      intro j hj
      obtain ⟨y, hy⟩ := hdef j (Nat.le_succ_of_le hj)
      obtain ⟨z, hz⟩ := hdef (j + 1) (Nat.succ_le_succ hj)
      obtain ⟨y', hy', hq⟩ := chainIter_some_of_succ hz
      rw [hy] at hy'
      rw [hy, Option.getD_some, Option.some.inj hy']
      exact mem_keys_of_qlookup hq
    have hcard : ((vars.map Prod.fst).toFinset).card <
        (Finset.range (vars.length + 1)).card := by
      have h1 := List.toFinset_card_le (vars.map Prod.fst)
      rw [Finset.card_range]
      simp only [List.length_map] at h1
      omega
    obtain ⟨i, hi, j, hj, hne, heq⟩ :=
      Finset.exists_ne_map_eq_of_card_lt_of_maps_to hcard
        (fun a ha => List.mem_toFinset.2
          (hkey a (Nat.lt_succ_iff.1 (Finset.mem_range.1 ha))))
    -- order the two equal positions
    rcases Nat.lt_or_ge i j with hij | hij
    · exact absurd heq (fun heq => by
        obtain ⟨a, hia⟩ := hdef i (Nat.le_succ_of_le
          (Nat.lt_succ_iff.1 (Finset.mem_range.1 hi)))
        obtain ⟨b, hjb⟩ := hdef j (Nat.le_succ_of_le
          (Nat.lt_succ_iff.1 (Finset.mem_range.1 hj)))
        rw [hia, hjb] at heq
        simp only [Option.getD_some] at heq
        subst heq
        have hsplit : j = i + (j - i) := by omega
        have := chainIter_add vars i (j - i) v
        rw [← hsplit, hjb, hia] at this
        simp only [Option.some_bind] at this
        have hd1 : j - i = (j - i - 1) + 1 := by omega
        exact hA a (j - i - 1) (by rw [← hd1]; exact this.symm))
    · have hij' : j < i := Nat.lt_of_le_of_ne hij (fun hh => hne hh.symm)
      exact absurd heq.symm (fun heq => by
        obtain ⟨a, hia⟩ := hdef j (Nat.le_succ_of_le
          (Nat.lt_succ_iff.1 (Finset.mem_range.1 hj)))
        obtain ⟨b, hjb⟩ := hdef i (Nat.le_succ_of_le
          (Nat.lt_succ_iff.1 (Finset.mem_range.1 hi)))
        rw [hia, hjb] at heq
        simp only [Option.getD_some] at heq
        subst heq
        have hsplit : i = j + (i - j) := by omega
        have := chainIter_add vars j (i - j) v
        rw [← hsplit, hjb, hia] at this
        simp only [Option.some_bind] at this
        have hd1 : i - j = (i - j - 1) + 1 := by omega
        exact hA a (i - j - 1) (by rw [← hd1]; exact this.symm))

/-- Witness for C9: the one-hop chain `a → b` is acyclic; `getValue`
resolves `"a"` to `"b"`, which is not a key. -/
theorem getValue_resolves_witness :
    qlookup [("a", "b")] (getValue [("a", "b")] "a") = none ∧
    getValue [("a", "b")] "a" = "b" := by
  have hA : Acyclic [("a", "b")] := by
    intro a n
    by_cases ha : a = "a"
    · subst ha
      cases n with
      | zero => decide
      | succ m =>
        intro hcon
        rw [chainIter] at hcon
        simp only [show qlookup [("a", "b")] "a" = some "b" from rfl] at hcon
        rw [chainIter] at hcon
        simp only [show qlookup [("a", "b")] "b" = none from rfl] at hcon
        exact Option.noConfusion hcon
    · intro hcon
      rw [chainIter] at hcon
      have hq : qlookup [("a", "b")] a = none := by
        have hbe : ("a" == a) = false := beq_eq_false_iff_ne.2 (Ne.symm ha)
        simp [qlookup, List.find?, hbe]
      rw [hq] at hcon
      exact Option.noConfusion hcon
  exact ⟨(getValue_resolves [("a", "b")] "a" hA).2.1, by decide⟩

/-! ### Claim C3 — the process-wide id counter -/

theorem nextID_newCtx (h : Heap) (name : Option String) :
    (newCtx h name).1.nextID = h.nextID := by
  rw [newCtx_spec]
  simp [nextID_setOwn]

theorem nextID_generateTemplateKey (h : Heap) (oid : Nat) (pfx : String) :
    (generateTemplateKey h oid pfx).2.nextID = h.nextID + 1 := by
  unfold generateTemplateKey
  simp only [generateID]
  split
  · rfl
  · simp [nextID_addLine]

theorem nextID_generateCode (h : Heap) (oid : Nat) :
    (generateCode h oid).2.nextID = h.nextID := by
  unfold generateCode
  simp [nextID_pushFlagLine]

theorem nextID_indentCtx (h : Heap) (oid : Nat) :
    (indentCtx h oid).nextID = h.nextID := by
  unfold indentCtx
  simp [nextID_setOwn]

theorem nextID_dedentCtx (h : Heap) (oid : Nat) :
    (dedentCtx h oid).nextID = h.nextID := by
  unfold dedentCtx
  simp [nextID_setOwn]

theorem nextID_withParent (h : Heap) (oid : Nat) (node : Int) :
    (match withParent h oid node with
     | .ok p => p.1
     | .error _ => h).nextID = h.nextID := by
  cases hw : withParent h oid node with
  | error e => simp
  | ok p =>
    simp only []
    unfold withParent at hw
    split at hw
    · exact absurd hw (by simp)
    · simp only [] at hw
      rw [← Except.ok.inj hw]
      split <;> split <;>
        simp [subContext, nextID_addLine, nextID_setOwn]

theorem nextID_addIf (h : Heap) (oid : Nat) (cond : String) :
    (addIf h oid cond).nextID = h.nextID := by
  unfold addIf
  rw [nextID_indentCtx, nextID_addLine]

theorem nextID_addElse (h : Heap) (oid : Nat) :
    (addElse h oid).nextID = h.nextID := by
  unfold addElse
  rw [nextID_indentCtx, nextID_addLine, nextID_dedentCtx]

theorem nextID_closeIf (h : Heap) (oid : Nat) :
    (closeIf h oid).nextID = h.nextID := by
  unfold closeIf
  rw [nextID_addLine, nextID_dedentCtx]

theorem nextID_renderThread
    (cexpr : String → List (String × QWebVar) → String → String)
    (oid : Nat) : ∀ (segs : List Seg) (h : Heap),
    (renderThread cexpr h oid segs).2.nextID = h.nextID := by
  intro segs
  induction segs with
  | nil => intro h; rfl
  | cons sg rest ih =>
    intro h
    cases sg with
    | lit c => simpa [renderThread] using ih h
    | marker t =>
      rw [renderThread]
      simp only []
      rw [ih, (formatExpression_preserves cexpr h oid (String.mk t)).2.2]

theorem nextID_interpolate
    (cexpr : String → List (String × QWebVar) → String → String)
    (h : Heap) (oid : Nat) (s : String) :
    (interpolate cexpr h oid s).2.nextID = h.nextID := by
  unfold interpolate
  cases (interpMatches s).head? with
  | none => simp [nextID_renderThread]
  | some m =>
    simp only []
    split
    · exact (formatExpression_preserves cexpr h oid (slice2m2 s)).2.2
    · simp [nextID_renderThread]

theorem nextID_startProtectScope (h : Heap) (oid : Nat) :
    (startProtectScope h oid).2.nextID = h.nextID + 1 := by
  unfold startProtectScope
  simp [generateID, nextID_addLine, nextID_setOwn]

theorem nextID_stopProtectScope (h : Heap) (oid : Nat) (pid : Int) :
    (stopProtectScope h oid pid).nextID = h.nextID := by
  unfold stopProtectScope
  rw [nextID_addLine]

theorem nextID_startBlockScope (h : Heap) (oid : Nat) :
    (startBlockScope h oid).1.nextID = h.nextID + 1 := by
  unfold startBlockScope
  simp [generateID, subContext, nextID_addLine, nextID_setOwn]

/-- No operation of the API ever decreases the static counter: it is
never reset, not even when a new template compilation begins. -/
theorem nextID_runOp
    (cexpr : String → List (String × QWebVar) → String → String)
    (h : Heap) (op : Op) : h.nextID ≤ (runOp cexpr h op).nextID := by
  cases op with
  | newCtx name => rw [runOp, nextID_newCtx]
  | generateID oid => exact Int.le_of_lt (Int.lt_succ _)
  | generateTemplateKey oid pfx =>
    rw [runOp, nextID_generateTemplateKey]
    omega
  | generateCode oid => rw [runOp, nextID_generateCode]
  | withParent oid node => rw [runOp, nextID_withParent]
  | subContext oid k v => exact Int.le_refl _
  | indent oid => rw [runOp, nextID_indentCtx]
  | dedent oid => rw [runOp, nextID_dedentCtx]
  | addLine oid l => rw [runOp, nextID_addLine]
  | addIf oid cond => rw [runOp, nextID_addIf]
  | addElse oid => rw [runOp, nextID_addElse]
  | closeIf oid => rw [runOp, nextID_closeIf]
  | formatExpression oid e =>
    rw [runOp, (formatExpression_preserves cexpr h oid e).2.2]
  | interpolate oid s => rw [runOp, nextID_interpolate]
  | startProtectScope oid =>
    rw [runOp, nextID_startProtectScope]
    omega
  | stopProtectScope oid pid => rw [runOp, nextID_stopProtectScope]
  | startBlockScope oid =>
    rw [runOp, nextID_startBlockScope]
    omega
  | extSet oid f v => rw [runOp, nextID_setOwn]

theorem nextID_runOps
    (cexpr : String → List (String × QWebVar) → String → String) :
    ∀ (ops : List Op) (h : Heap), h.nextID ≤ (runOps cexpr h ops).nextID := by
  intro ops
  induction ops with
  | nil => intro h; exact Int.le_refl _
  | cons op rest ih =>
    intro h
    exact Int.le_trans (nextID_runOp cexpr h op) (ih (runOp cexpr h op))

/-- C3: between any two `generateID` calls — with an arbitrary
sequence of API operations on arbitrary context instances in between,
including constructing new template contexts — the second returned id
is strictly greater than the first; hence no id is ever repeated and
the process-wide counter is never reset per template. -/
theorem generateID_strictly_increases
    (cexpr : String → List (String × QWebVar) → String → String)
    (h : Heap) (ops : List Op) :
    (generateID h).1 < (generateID (runOps cexpr (generateID h).2 ops)).1 := by
  have h2 := nextID_runOps cexpr ops (generateID h).2
  have h1 : ((generateID h).2).nextID = h.nextID + 1 := rfl
  have h3 : (generateID h).1 = h.nextID := rfl
  have h4 : (generateID (runOps cexpr (generateID h).2 ops)).1 =
      (runOps cexpr (generateID h).2 ops).nextID := rfl
  rw [h3, h4]
  omega

/-- Witness for the amended C4: after a first `withParent(1)` the
root's `rootNode` is the truthy `1`, and a second root-level
`withParent(2)` leaves it at `1`. -/
theorem withParent_preserves_truthy_rootNode_witness :
    (match withParent (newCtx emptyHeap none).1 0 1 with
     | .ok (h1, _) => readField h1 0 .rootNode = .num 1 ∧
        (∀ res2, withParent h1 0 2 = .ok res2 →
          readField res2.1 0 .rootNode = readField h1 0 .rootNode)
     | .error _ => False) := by
  refine ⟨by decide, ?_⟩
  exact withParent_preserves_truthy_rootNode _ 0 0 2 (by decide) (by decide)
    (by decide) (by decide)

end Owl
